import Mathlib

/-!
Verification of the FFSVersionManager core against its specification.

The development shallowly embeds the Python core of the repository:

- a model of POSIX pure paths mirroring pathlib (parsing, rendering,
  relative_to, join, parent) and of the os.path helpers used by the code
  (basename, dirname, splitext),
- a filesystem model (finite list of files with modification time and size)
  with string-based probes mirroring os.path.exists, os.path.getmtime,
  os.path.getsize and directory listing with glob,
- the sync-pair registry (config_parser.py, ffs_config_parser.py,
  sync_config_model.py),
- the history resolver and its module-level cache (file_history_model.py),
- the remarks store (file_remarks_model.py), with the database table
  modelled as the list of its rows.

Definitions are translated from the source files; theorems at the end settle
the specification claims.
-/

namespace FFSVM

/-! ## Pure path model (pathlib.PurePosixPath) -/

/-- A parsed pure path: an absoluteness flag plus the list of components,
mirroring pathlib normalisation (empty and dot components dropped). -/
structure PPath where
  absolute : Bool
  comps : List String
deriving DecidableEq, Repr

/-- Prefix test on strings by character lists (the semantics of Python
str.startswith, written so that it evaluates by kernel reduction). -/
def strStartsWith (s pre : String) : Bool :=
  pre.toList.isPrefixOf s.toList

/-- Split a character list on a separator character, keeping empty pieces,
with the semantics of Python str.split with an explicit separator. -/
def splitListOn (c : Char) : List Char → List (List Char)
  | [] => [[]]
  | x :: xs =>
    match splitListOn c xs with
    | h :: t => if x == c then [] :: h :: t else (x :: h) :: t
    | [] => [[x]]

/-- Split a string on the slash character into its pieces. -/
def splitSlashes (s : String) : List String :=
  (splitListOn '/' s.toList).map String.mk

/-- Interleave a separator character between character lists. -/
def intercalateChar (c : Char) : List (List Char) → List Char
  | [] => []
  | [x] => x
  | x :: y :: t => x ++ c :: intercalateChar c (y :: t)

/-- Join path components with slashes. -/
def joinComps (l : List String) : List Char :=
  intercalateChar '/' (l.map String.toList)

/-- Parse a string into a pure path, as the PurePosixPath constructor does:
split on slashes, drop empty and single-dot components. -/
def parsePath (s : String) : PPath :=
  ⟨strStartsWith s "/", (splitSlashes s).filter (fun c => c != "" && c != ".")⟩

/-- Render a pure path back to a string, as str applied to a PurePosixPath:
absolute paths get a leading slash, the empty relative path prints as a dot. -/
def renderPath (p : PPath) : String :=
  if p.absolute then String.mk ('/' :: joinComps p.comps)
  else if p.comps.isEmpty then "." else String.mk (joinComps p.comps)

/-- Path.relative_to: succeeds when both paths have the same anchor and the
base components are a prefix, otherwise fails (ValueError in Python). -/
def relativeTo (p base : PPath) : Option PPath :=
  if p.absolute == base.absolute && base.comps.isPrefixOf p.comps then
    some ⟨false, p.comps.drop base.comps.length⟩
  else none

/-- Path joining (the slash operator): an absolute right operand replaces the
left one, otherwise components are appended. -/
def joinPath (a b : PPath) : PPath :=
  if b.absolute then b else ⟨a.absolute, a.comps ++ b.comps⟩

/-- Path.parent: drop the last component, fixed point at the root and at the
empty relative path. -/
def PPath.parent (p : PPath) : PPath :=
  if p.comps.isEmpty then p else ⟨p.absolute, p.comps.dropLast⟩

/-- os.path.basename on a string: everything after the last slash. -/
def posixBasename (s : String) : String :=
  ((splitSlashes s).getLast?).getD ""

/-- os.path.dirname on a string: everything up to the last slash, trailing
slashes stripped unless the head is all slashes. -/
def posixDirname (s : String) : String :=
  let cs := s.toList
  match cs.reverse.findIdx? (fun c => c == '/') with
  | none => ""
  | some k =>
    let head := cs.take (cs.length - k)
    if head.any (fun c => c != '/') then
      String.mk ((head.reverse.dropWhile (fun c => c == '/')).reverse)
    else String.mk head

/-- os.path.splitext restricted to slash-free names: split at the last dot
provided some earlier character of the name is not a dot. -/
def splitextPair (s : String) : String × String :=
  let cs := s.toList
  match cs.reverse.findIdx? (fun c => c == '.') with
  | none => (s, "")
  | some k =>
    let i := cs.length - 1 - k
    if (cs.take i).any (fun c => c != '.') then
      (String.mk (cs.take i), String.mk (cs.drop i))
    else (s, "")

/-- pathlib PurePath.name: the final path component. -/
def pathlibName (s : String) : String :=
  ((parsePath s).comps.getLast?).getD ""

/-- pathlib PurePath.suffix: the extension of the final component, empty when
the only dot is leading or trailing. -/
def pathlibSuffix (s : String) : String :=
  let n := (pathlibName s).toList
  match n.reverse.findIdx? (fun c => c == '.') with
  | none => ""
  | some k =>
    let i := n.length - 1 - k
    if 0 < i && i < n.length - 1 then String.mk (n.drop i) else ""

/-- pathlib PurePath.stem: the final component with its suffix removed. -/
def pathlibStem (s : String) : String :=
  let n := (pathlibName s).toList
  String.mk (n.take (n.length - (pathlibSuffix s).length))

/-! ## Glob pattern matching (fnmatch, as used by Path.glob on one name) -/

/-- Split a character list at the first occurrence of the given character,
returning the part before it and the part after it. -/
def splitAtChar (c : Char) : List Char → Option (List Char × List Char)
  | [] => none
  | x :: xs =>
    if x == c then some ([], xs)
    else (splitAtChar c xs).map (fun r => (x :: r.1, r.2))

/-- Read a bracket character class following an opening bracket: an optional
leading bang negates, a class-initial closing bracket is literal; returns the
negation flag, the class body and the rest of the pattern. -/
def takeClass (cs : List Char) : Option (Bool × List Char × List Char) :=
  let peel : Bool × List Char :=
    match cs with
    | '!' :: t => (true, t)
    | _ => (false, cs)
  match peel.2 with
  | ']' :: t =>
    (splitAtChar ']' t).map (fun r => (peel.1, ']' :: r.1, r.2))
  | other =>
    (splitAtChar ']' other).map (fun r => (peel.1, r.1, r.2))

/-- Membership of a character in a class body, with dash ranges. -/
def matchClass (c : Char) : List Char → Bool
  | a :: '-' :: b :: rest => (a ≤ c && c ≤ b) || matchClass c rest
  | a :: rest => (c == a) || matchClass c rest
  | [] => false

/-- Fuelled worker for glob matching; the fuel strictly exceeds the sum of the
pattern and name lengths on every reachable call, so it never runs out. -/
def globMatchGo : Nat → List Char → List Char → Bool
  | 0, _, _ => false
  | _ + 1, [], [] => true
  | _ + 1, [], _ :: _ => false
  | k + 1, '*' :: ps, [] => globMatchGo k ps []
  | k + 1, '*' :: ps, n :: ns =>
    globMatchGo k ps (n :: ns) || globMatchGo k ('*' :: ps) ns
  | _ + 1, '?' :: _, [] => false
  | k + 1, '?' :: ps, _ :: ns => globMatchGo k ps ns
  | _ + 1, '[' :: _, [] => false
  | k + 1, '[' :: ps, n :: ns =>
    (match takeClass ps with
     | some r =>
       (if r.1 then !(matchClass n r.2.1) else matchClass n r.2.1) && globMatchGo k r.2.2 ns
     | none => ('[' == n) && globMatchGo k ps ns)
  | _ + 1, _ :: _, [] => false
  | k + 1, p :: ps, n :: ns => (p == n) && globMatchGo k ps ns

/-- Glob matching of one pattern against one name: star, question mark and
bracket classes; an unterminated bracket is a literal character. -/
def globMatch (p n : List Char) : Bool :=
  globMatchGo (p.length + n.length + 1) p n

/-! ## Filesystem model -/

/-- One regular file of the modelled filesystem: absolute path components,
modification time and size. -/
structure FSFile where
  comps : List String
  mtime : Nat
  fsize : Nat
deriving DecidableEq, Repr

/-- A filesystem is a finite list of files; directories exist implicitly as
proper prefixes of file paths. -/
structure FileSystem where
  files : List FSFile
deriving DecidableEq, Repr

/-- os.path.exists on a string: the reparsed path is absolute and is a file or
a prefix (directory) of one. -/
def FileSystem.existsStr (fs : FileSystem) (s : String) : Bool :=
  let p := parsePath s
  p.absolute && fs.files.any (fun f => p.comps.isPrefixOf f.comps)

/-- Find the file a string path denotes, reparsing as the OS would. -/
def FileSystem.statFind (fs : FileSystem) (s : String) : Option FSFile :=
  fs.files.find? (fun f => f.comps == (parsePath s).comps)

/-- os.path.getmtime on a string path (total model, zero when absent). -/
def FileSystem.mtimeStr (fs : FileSystem) (s : String) : Nat :=
  ((fs.statFind s).map FSFile.mtime).getD 0

/-- os.path.getsize on a string path (total model, zero when absent). -/
def FileSystem.sizeStr (fs : FileSystem) (s : String) : Nat :=
  ((fs.statFind s).map FSFile.fsize).getD 0

/-- Names of the entries directly inside a directory, in filesystem order,
as Path.glob enumerates them; empty for a non-absolute directory. -/
def FileSystem.dirNames (fs : FileSystem) (dir : PPath) : List String :=
  if dir.absolute then
    ((fs.files.filter (fun f => !f.comps.isEmpty && f.comps.dropLast == dir.comps)).map
      (fun f => (f.comps.getLast?).getD ""))
  else []

/-! ## Sync pair registry (config_parser.py, ffs_config_parser.py) -/

/-- Per-side sync policy attributes of the Changes element. -/
structure SidePolicy where
  create : String
  update : String
  delete : String
deriving DecidableEq, Repr

/-- The SyncPair dataclass of config_parser.py. The versioning folder is an
option: none models a Python None text, as produced when the
VersioningFolder element is present but empty. -/
structure SyncPair where
  name : String
  left_path : String
  right_path : String
  versioning_folder : Option String
  sync_policy : List (String × SidePolicy)
  include_patterns : List String
  exclude_patterns : List String
  sync_config_path : String
deriving DecidableEq, Repr

/-- An XML element as ElementTree exposes it: tag, attributes, leading text
and child elements. -/
inductive XmlElem where
  | node (tag : String) (attrs : List (String × String)) (text : Option String)
      (children : List XmlElem)

/-- Tag of an element. -/
def XmlElem.tag : XmlElem → String
  | .node t _ _ _ => t

/-- Attributes of an element. -/
def XmlElem.attrs : XmlElem → List (String × String)
  | .node _ a _ _ => a

/-- Text of an element, none when absent as in ElementTree. -/
def XmlElem.text : XmlElem → Option String
  | .node _ _ x _ => x

/-- Child elements of an element. -/
def XmlElem.children : XmlElem → List XmlElem
  | .node _ _ _ cs => cs

/-- Element.find on the child axis: first child with the given tag. -/
def XmlElem.find (e : XmlElem) (t : String) : Option XmlElem :=
  e.children.find? (fun c => c.tag == t)

/-- Element.findall on the child axis: all children with the given tag. -/
def XmlElem.findallChildren (e : XmlElem) (t : String) : List XmlElem :=
  e.children.filter (fun c => c.tag == t)

/-- Element.get: attribute lookup with a default. -/
def XmlElem.getAttr (e : XmlElem) (k dflt : String) : String :=
  ((e.attrs.find? (fun p => p.1 == k)).map Prod.snd).getD dflt

mutual

/-- All proper descendants of an element in document order, the node set the
dot-slash-slash path prefix of Element.find and findall traverses. -/
def XmlElem.descendants : XmlElem → List XmlElem
  | .node _ _ _ cs => XmlElem.descendantsList cs

/-- Preorder listing of a forest of elements together with their descendants. -/
def XmlElem.descendantsList : List XmlElem → List XmlElem
  | [] => []
  | c :: cs => c :: (XmlElem.descendants c ++ XmlElem.descendantsList cs)

end

/-- First descendant with the given tag, as Element.find with a
descendant path. -/
def XmlElem.findDescendant (e : XmlElem) (t : String) : Option XmlElem :=
  e.descendants.find? (fun c => c.tag == t)

/-- The Pair elements selected by findall with the descendant path
FolderPairs slash Pair, in document order. -/
def folderPairElems (root : XmlElem) : List XmlElem :=
  (root.descendants.filter (fun c => c.tag == "FolderPairs")).flatMap
    (fun fp => fp.findallChildren "Pair")

/-- Item texts of a filter list element, as the list comprehension over
findall Item keeping only truthy texts. -/
def filterItemTexts (e : XmlElem) : List String :=
  (e.findallChildren "Item").filterMap (fun it =>
    match it.text with
    | some t => if t != "" then some t else none
    | none => none)

/-- Include and exclude pattern lists of a Filter element. -/
def filterLists (fe : XmlElem) : List String × List String :=
  (match fe.find "Include" with
   | some ie => filterItemTexts ie
   | none => [],
   match fe.find "Exclude" with
   | some ee => filterItemTexts ee
   | none => [])

/-- FFSConfigParser.parse_config of ffs_config_parser.py. The document is an
option: none models an ElementTree parse failure (malformed or unreadable
file), which the except clause of the source turns into a None result. -/
def parse_config (doc : Option XmlElem) (config_path : String) : Option (List SyncPair) :=
  match doc with
  | none => none
  | some root =>
    let name := pathlibStem config_path
    let versioning_path : Option String :=
      match root.findDescendant "VersioningFolder" with
      | some ve => ve.text
      | none => some ""
    let sync_policy : List (String × SidePolicy) :=
      match root.findDescendant "Changes" with
      | none => []
      | some changes =>
        ["Left", "Right"].filterMap (fun side =>
          (changes.find side).map (fun se =>
            (side, ⟨se.getAttr "Create" "none", se.getAttr "Update" "none",
                    se.getAttr "Delete" "none"⟩)))
    let globalFilters : List String × List String :=
      match root.findDescendant "Filter" with
      | some fe => filterLists fe
      | none => ([], [])
    some ((folderPairElems root).filterMap (fun pe =>
      match pe.find "Left", pe.find "Right" with
      | some le, some re =>
        let pairFilters : List String × List String :=
          match pe.find "Filter" with
          | some pf => filterLists pf
          | none => ([], [])
        some
          { name := name
            left_path := (le.text).getD ""
            right_path := (re.text).getD ""
            versioning_folder := versioning_path
            sync_policy := sync_policy
            include_patterns := globalFilters.1 ++ pairFilters.1
            exclude_patterns := globalFilters.2 ++ pairFilters.2
            sync_config_path := config_path }
      | _, _ => none))

/-- ConfigParserFactory.create_parser: only the ffs_batch suffix has a
parser implementation. -/
def parserSupported (config_path : String) : Bool :=
  (pathlibSuffix config_path).toLower == ".ffs_batch"

/-- SyncPair equality as defined by its Python eq method: by config source
path alone. -/
def pairEqPy (a b : SyncPair) : Bool :=
  a.sync_config_path == b.sync_config_path

/-- The inner loop of SyncConfigModel.add_configs: append each parsed pair
unless an equal one, in the sense of pairEqPy, is already registered. -/
def appendNewPairs (acc new : List SyncPair) : List SyncPair :=
  new.foldl (fun acc sp => if acc.any (pairEqPy sp) then acc else acc ++ [sp]) acc

/-- The environment a config path is read in: the parsed XML document of each
config file, none for a missing or malformed file. -/
def ConfigEnv := String → Option XmlElem

/-- One iteration of SyncConfigModel.add_configs for a single config path:
select a parser by suffix, parse, register the new pairs; the flag is the
per-path success entry. -/
def add_one_config (env : ConfigEnv) (st : List SyncPair) (config_path : String) :
    List SyncPair × Bool :=
  if parserSupported config_path then
    match parse_config (env config_path) config_path with
    | some prs => (appendNewPairs st prs, true)
    | none => (st, false)
  else (st, false)

/-- SyncConfigModel.add_configs over a list of config paths, returning the
registered pair list and the success flags. -/
def add_configs (env : ConfigEnv) (st : List SyncPair) (paths : List String) :
    List SyncPair × List Bool :=
  paths.foldl (fun acc p =>
    let r := add_one_config env acc.1 p
    (r.1, acc.2 ++ [r.2])) (st, [])

/-! ## History resolver and cache (file_history_model.py, path_manager.py) -/

/-- The FileHistoryItem dataclass; modification time and size are natural
numbers of the filesystem model. -/
structure FileHistoryItem where
  file_name : String
  modified_time : Nat
  file_size : Nat
  version : String
  file_path : String
  folder_path : String
  sync_pair : SyncPair
  is_source : Bool
  is_synced : Bool
deriving DecidableEq, Repr

/-- PathManager.is_valid: paths with a double-slash or double-backslash lead
go to the SMB handler and ftp prefixed ones to the FTP handler, both of which
answer true unconditionally; local paths are probed with os.path.exists. -/
def isValidPath (fs : FileSystem) (p : String) : Bool :=
  if strStartsWith p "//" || strStartsWith p "\\\\" then true
  else if strStartsWith p "ftp://" then true
  else fs.existsStr p

/-- Build one FileHistoryItem for a path string, reading name, times and
sizes the way the source does for each appended item. -/
def mkHistoryItem (fs : FileSystem) (pathStr ver : String) (pair : SyncPair)
    (isrc syncd : Bool) : FileHistoryItem :=
  { file_name := posixBasename pathStr
    modified_time := fs.mtimeStr pathStr
    file_size := fs.sizeStr pathStr
    version := ver
    file_path := pathStr
    folder_path := posixDirname pathStr
    sync_pair := pair
    is_source := isrc
    is_synced := syncd }

/-- The glob pattern the resolver builds for archived copies: the base name,
a space, the timestamp digit classes and the extension. -/
def versionGlobPattern (base ext : String) : List Char :=
  base.toList
    ++ " [0-9][0-9][0-9][0-9]-[0-9][0-9]-[0-9][0-9] [0-9][0-9][0-9][0-9][0-9][0-9]".toList
    ++ ext.toList

/-- The versioning-folder step of the per-pair loop: when the pair has a
truthy versioning folder, glob its subfolder for the relative path's parent
with the timestamped pattern built from the base name and extension, and
emit one archived item per existing hit. -/
def versioningItemsCore (fs : FileSystem) (pair : SyncPair) (rel : PPath) :
    Option String → List FileHistoryItem
  | some vf =>
    if vf != "" then
      ((fs.dirNames ((joinPath (parsePath vf) rel).parent)).filter (fun nm =>
          globMatch
            (versionGlobPattern (posixBasename (renderPath rel))
              (splitextPair (posixBasename (renderPath rel))).2) nm.toList)).filterMap
        (fun nm =>
          if fs.existsStr (renderPath ⟨((joinPath (parsePath vf) rel).parent).absolute,
              ((joinPath (parsePath vf) rel).parent).comps ++ [nm]⟩) then
            some (mkHistoryItem fs
              (renderPath ⟨((joinPath (parsePath vf) rel).parent).absolute,
                ((joinPath (parsePath vf) rel).parent).comps ++ [nm]⟩)
              "历史版本" pair false false)
          else none)
    else []
  | none => []

/-- The versioning step applied to the pair's own versioning folder. -/
def versioningItems (fs : FileSystem) (pair : SyncPair) (rel : PPath) :
    List FileHistoryItem :=
  versioningItemsCore fs pair rel pair.versioning_folder

/-- The body of the per-pair loop of load_file_history: relative_to against
the left path only, with a ValueError skipping the pair; then the source
item on an exact string round trip, the mirror item when the right
counterpart exists, and the timestamped glob hits of the versioning folder.
The flag is the has_matched contribution of the pair. -/
def processPair (fs : FileSystem) (file_path : String) (pair : SyncPair) :
    List FileHistoryItem × Bool :=
  match relativeTo (parsePath file_path) (parsePath pair.left_path) with
  | none => ([], false)
  | some rel =>
    let srcMatch := file_path == renderPath (joinPath (parsePath pair.left_path) rel)
    let srcItems :=
      if srcMatch then [mkHistoryItem fs file_path "源文件" pair true true] else []
    let rightStr := renderPath (joinPath (parsePath pair.right_path) rel)
    let mirrorItems :=
      if fs.existsStr rightStr then [mkHistoryItem fs rightStr "同步文件" pair false true]
      else []
    (srcItems ++ mirrorItems ++ versioningItems fs pair rel, srcMatch)

/-- Concatenated per-pair items and the accumulated has_matched flag, the
state of history_data and has_matched after the loop of load_file_history. -/
def emittedItems (fs : FileSystem) (file_path : String) (pairs : List SyncPair) :
    List FileHistoryItem × Bool :=
  pairs.foldl (fun acc pair =>
    let r := processPair fs file_path pair
    (acc.1 ++ r.1, acc.2 || r.2)) ([], false)

/-- Insert an item into a list sorted by descending modification time,
after every element with a strictly larger key and before the rest; with
stability this places a later-emitted item after all equally timed earlier
ones, exactly where the stable Python sort keeps it. -/
def insertByMtime (x : FileHistoryItem) : List FileHistoryItem → List FileHistoryItem
  | [] => [x]
  | y :: ys =>
    if x.modified_time < y.modified_time then y :: insertByMtime x ys else x :: y :: ys

/-- The final list.sort with a modified-time key and reverse true: a stable
sort by descending modification time, realised as stable insertion sort. -/
def sortByMtimeDesc : List FileHistoryItem → List FileHistoryItem
  | [] => []
  | x :: xs => insertByMtime x (sortByMtimeDesc xs)

/-- The module-level FILE_HISTORY_CACHE dictionary, as a map from path
strings to cached results. -/
def HistoryCache := String → Option (List FileHistoryItem × Bool)

/-- The empty cache. -/
def emptyCache : HistoryCache := fun _ => none

/-- Dictionary insertion. -/
def cacheInsert (c : HistoryCache) (k : String) (v : List FileHistoryItem × Bool) :
    HistoryCache :=
  fun q => if q == k then some v else c q

/-- Dictionary deletion of one key. -/
def cacheErase (c : HistoryCache) (k : String) : HistoryCache :=
  fun q => if q == k then none else c q

/-- clear_file_history_cache: clear everything for a none argument, delete
the one entry when present otherwise. -/
def clear_file_history_cache (c : HistoryCache) : Option String → HistoryCache
  | none => emptyCache
  | some p => if (c p).isSome then cacheErase c p else c

/-- The outcome of a load_file_history call: the returned pair, the cache
after the call, and an instrumentation counter of per-pair filesystem scans
performed by the call. -/
structure LoadOutcome where
  items : List FileHistoryItem
  has_matched : Bool
  cache : HistoryCache
  scans : Nat

/-- load_file_history of file_history_model.py: an invalid path returns
empty immediately; a cached path returns the cached pair; otherwise the
per-pair loop runs, the result is sorted descending by modification time,
cached, and returned. -/
def load_file_history (fs : FileSystem) (file_path : String)
    (sync_pairs : List SyncPair) (cache : HistoryCache) : LoadOutcome :=
  if !(isValidPath fs file_path) then ⟨[], false, cache, 0⟩
  else
    match cache file_path with
    | some r => ⟨r.1, r.2, cache, 0⟩
    | none =>
      let e := emittedItems fs file_path sync_pairs
      let sorted := sortByMtimeDesc e.1
      ⟨sorted, e.2, cacheInsert cache file_path (sorted, e.2), 1⟩

/-! ## Remarks store (file_remarks_model.py) -/

/-- One row of the FileRemarks table. -/
structure RemarksRecord where
  file_path : String
  file_hash : String
  remarks : String
  created_at : Nat
  updated_at : Nat
deriving DecidableEq, Repr

/-- The ambient effects of the remarks manager: path normalisation through
Path.resolve plus as_posix, content hashing through calculate_file_hash with
the empty string standing for a failed hash, and the clock. -/
structure RemarksEnv where
  resolve : String → String
  hashOf : String → String
  now : Nat

/-- Replace the first list entry satisfying the test, the effect of mutating
the first row a query returns and committing. -/
def updateFirst (pred : RemarksRecord → Bool) (f : RemarksRecord → RemarksRecord) :
    List RemarksRecord → List RemarksRecord
  | [] => []
  | r :: rs => if pred r then f r :: rs else r :: updateFirst pred f rs

/-- FileRemarksManager.get_remarks_record: find by normalised path, else by
content hash when the file hashes at all. -/
def get_remarks_record (env : RemarksEnv) (st : List RemarksRecord) (p : String) :
    Option RemarksRecord :=
  let np := env.resolve p
  match st.find? (fun r => r.file_path == np) with
  | some r => some r
  | none =>
    let h := env.hashOf p
    if h != "" then
      match st.find? (fun r => r.file_hash == h) with
      | some r => some { r with file_path := np }
      | none => none
    else none

/-- FileRemarksManager.get_remarks: the text of the record, empty on miss. -/
def get_remarks (env : RemarksEnv) (st : List RemarksRecord) (p : String) : String :=
  match get_remarks_record env st p with
  | some r => r.remarks
  | none => ""

/-- FileRemarksManager.delete_remarks, including its indentation slip: in the
hash branch the boolean true is returned whether or not a row was found. -/
def delete_remarks (env : RemarksEnv) (st : List RemarksRecord) (p : String) :
    List RemarksRecord × Bool :=
  let np := env.resolve p
  if st.any (fun r => r.file_path == np) then
    (st.eraseP (fun r => r.file_path == np), true)
  else
    let h := env.hashOf p
    if h != "" then
      (if st.any (fun r => r.file_hash == h) then st.eraseP (fun r => r.file_hash == h)
       else st, true)
    else (st, false)

/-- Python str.strip: drop leading and trailing whitespace. -/
def strTrim (s : String) : String :=
  String.mk (((s.toList.dropWhile Char.isWhitespace).reverse.dropWhile
    Char.isWhitespace).reverse)

/-- FileRemarksManager.set_remarks: strip, delegate to delete on empty text,
else update the path match, else update and repoint the hash match, else
insert a fresh row. -/
def set_remarks (env : RemarksEnv) (st : List RemarksRecord) (p text : String) :
    List RemarksRecord × Bool :=
  let t := strTrim text
  if t == "" then delete_remarks env st p
  else
    let np := env.resolve p
    if st.any (fun r => r.file_path == np) then
      (updateFirst (fun r => r.file_path == np)
        (fun r => { r with remarks := t, updated_at := env.now }) st, true)
    else
      let h := env.hashOf p
      if h != "" && st.any (fun r => r.file_hash == h) then
        (updateFirst (fun r => r.file_hash == h)
          (fun r => { r with file_path := np, remarks := t, updated_at := env.now }) st, true)
      else (st ++ [⟨np, h, t, env.now, env.now⟩], true)

end FFSVM

namespace FFSVM

example : parsePath "/A/doc.txt" = ⟨true, ["A", "doc.txt"]⟩ := by decide
example : renderPath (parsePath "/A//b/./c") = "/A/b/c" := by decide
example : posixDirname "/A/doc.txt" = "/A" := by decide
example : posixDirname "/doc.txt" = "/" := by decide
example : posixDirname "doc.txt" = "" := by decide
example : splitextPair "doc.txt" = ("doc", ".txt") := by decide
example : splitextPair ".bashrc" = (".bashrc", "") := by decide
example : pathlibStem "/c.ffs_batch" = "c" := by decide
example : pathlibSuffix "/c.ffs_batch" = ".ffs_batch" := by decide
example : globMatch "doc.txt [0-9][0-9][0-9][0-9]-[0-9][0-9]-[0-9][0-9] [0-9][0-9][0-9][0-9][0-9][0-9].txt".toList
    "doc.txt 2024-01-01 120000.txt".toList = true := by decide
example : globMatch "doc.txt [0-9][0-9][0-9][0-9]-[0-9][0-9]-[0-9][0-9] [0-9][0-9][0-9][0-9][0-9][0-9].txt".toList
    "doc.txt 2024-01-0a 120000.txt".toList = false := by decide

/-! ## Concrete fixtures used by scenario theorems, counterexamples and
witnesses -/

/-- A single configured pair with left /A, right /B and versioning folder /V. -/
def pairAB : SyncPair :=
  ⟨"cfg", "/A", "/B", some "/V", [], [], [], "/cfg.ffs_batch"⟩

/-- Scenario filesystem: the probed file, its mirror and one archived copy. -/
def fsScenario : FileSystem :=
  ⟨[⟨["A", "doc.txt"], 100, 7⟩, ⟨["B", "doc.txt"], 90, 7⟩,
    ⟨["V", "doc.txt 2024-01-01 120000.txt"], 80, 7⟩]⟩

/-- Filesystem holding only a right-side file of pairAB. -/
def fsRightOnly : FileSystem := ⟨[⟨["B", "doc.txt"], 90, 5⟩]⟩

/-- Filesystem holding only an archived copy inside the versioning folder of
pairAB. -/
def fsVersOnly : FileSystem := ⟨[⟨["V", "doc.txt 2024-01-01 120000.txt"], 80, 5⟩]⟩

/-- A config document whose single Pair has an empty Left element (present,
text missing) and a populated Right element. -/
def cfgEmptyLeft : XmlElem :=
  .node "FreeFileSync" [] none
    [.node "FolderPairs" [] none
      [.node "Pair" [] none
        [.node "Left" [] none [], .node "Right" [] (some "/B") []]]]

/-- A remarks environment with identity normalisation and a constant
successful hash. -/
def remEnvA : RemarksEnv := ⟨fun s => s, fun _ => "h1", 0⟩

/-- An unrelated pre-existing remarks row. -/
def recOther : RemarksRecord := ⟨"/other", "h2", "note", 0, 0⟩

example : (load_file_history fsScenario "/A/doc.txt" [pairAB] emptyCache).items.length = 3 := by
  decide
example : (load_file_history fsRightOnly "/B/doc.txt" [pairAB] emptyCache).has_matched
    = false := by decide
example : parse_config (some cfgEmptyLeft) "/c.ffs_batch"
    = some [⟨"c", "", "/B", some "", [], [], [], "/c.ffs_batch"⟩] := by decide
example : strTrim "hello" = "hello" := by decide
example : strTrim "  " = "" := by decide

/-! ## General lemmas about the embedded operations -/

/-- Unrolled form of the per-pair loop accumulator. -/
theorem foldl_emit_eq (fs : FileSystem) (p : String) (ps : List SyncPair)
    (acc : List FileHistoryItem × Bool) :
    ps.foldl (fun acc pair =>
        let r := processPair fs p pair
        (acc.1 ++ r.1, acc.2 || r.2)) acc
      = (acc.1 ++ (ps.map (fun pr => (processPair fs p pr).1)).flatten,
         acc.2 || ps.any (fun pr => (processPair fs p pr).2)) := by
  induction ps generalizing acc with
  | nil => simp
  | cons hd tl ih => simp [ih, Bool.or_assoc]

/-- The loop of load_file_history concatenates per-pair item lists and
or-accumulates the per-pair match flags. -/
theorem emittedItems_eq (fs : FileSystem) (p : String) (ps : List SyncPair) :
    emittedItems fs p ps
      = ((ps.map (fun pr => (processPair fs p pr).1)).flatten,
         ps.any (fun pr => (processPair fs p pr).2)) := by
  unfold emittedItems
  simpa using foldl_emit_eq fs p ps ([], false)

/-- Joining a base with the relative path that relative_to produced recovers
the original path. -/
theorem joinPath_relativeTo {p b rel : PPath} (h : relativeTo p b = some rel) :
    joinPath b rel = p := by
  unfold relativeTo at h
  by_cases hc : (p.absolute == b.absolute && b.comps.isPrefixOf p.comps) = true
  · rw [if_pos hc] at h
    injection h with h
    rw [Bool.and_eq_true] at hc
    rcases hc with ⟨ha, hp⟩
    have ha : p.absolute = b.absolute := by simpa using ha
    have hp : b.comps ++ p.comps.drop b.comps.length = p.comps :=
      List.prefix_iff_eq_append.mp (List.isPrefixOf_iff_prefix.mp hp)
    cases p with
    | mk pa pc =>
      cases b with
      | mk ba bc =>
        subst h
        simp only [joinPath]
        simp_all
  · rw [if_neg hc] at h
    exact absurd h (by simp)

/-- The per-pair match flag holds exactly when relative_to against the left
path succeeds and the queried string is its own normalised rendering. -/
theorem processPair_matched_iff (fs : FileSystem) (p : String) (pair : SyncPair) :
    (processPair fs p pair).2 = true
      ↔ ((relativeTo (parsePath p) (parsePath pair.left_path)).isSome = true
          ∧ renderPath (parsePath p) = p) := by
  unfold processPair
  cases h : relativeTo (parsePath p) (parsePath pair.left_path) with
  | none => simp [h]
  | some rel =>
    have hj := joinPath_relativeTo h
    simp only [h, Option.isSome_some, true_and]
    rw [hj]
    constructor
    · intro hm
      exact (beq_iff_eq.mp hm).symm
    · intro hm
      exact beq_iff_eq.mpr hm.symm

/-- Inserting permutes with consing. -/
theorem insertByMtime_perm (x : FileHistoryItem) (s : List FileHistoryItem) :
    (insertByMtime x s).Perm (x :: s) := by
  induction s with
  | nil => simp [insertByMtime]
  | cons y ys ih =>
    by_cases h : x.modified_time < y.modified_time
    · rw [insertByMtime, if_pos h]
      exact (ih.cons y).trans (List.Perm.swap x y ys)
    · rw [insertByMtime, if_neg h]

/-- The stable sort permutes its input. -/
theorem sortByMtimeDesc_perm (l : List FileHistoryItem) :
    (sortByMtimeDesc l).Perm l := by
  induction l with
  | nil => simp [sortByMtimeDesc]
  | cons x xs ih =>
    rw [sortByMtimeDesc]
    exact (insertByMtime_perm x (sortByMtimeDesc xs)).trans (ih.cons x)

/-- Inserting into a list sorted by descending modification time keeps it
sorted. -/
theorem sorted_insertByMtime {x : FileHistoryItem} {s : List FileHistoryItem}
    (hs : s.Pairwise (fun a b => b.modified_time ≤ a.modified_time)) :
    (insertByMtime x s).Pairwise (fun a b => b.modified_time ≤ a.modified_time) := by
  induction s with
  | nil => simp [insertByMtime]
  | cons y ys ih =>
    rcases List.pairwise_cons.mp hs with ⟨hy, hys⟩
    by_cases h : x.modified_time < y.modified_time
    · rw [insertByMtime, if_pos h]
      refine List.pairwise_cons.mpr ⟨?_, ih hys⟩
      intro z hz
      rcases List.mem_cons.mp ((insertByMtime_perm x ys).mem_iff.mp hz) with hzx | hzys
      · subst hzx
        exact Nat.le_of_lt h
      · exact hy z hzys
    · rw [insertByMtime, if_neg h]
      refine List.pairwise_cons.mpr ⟨?_, hs⟩
      intro z hz
      rcases List.mem_cons.mp hz with hzy | hzys
      · subst hzy
        exact Nat.le_of_not_lt h
      · exact Nat.le_trans (hy z hzys) (Nat.le_of_not_lt h)

/-- The stable sort produces a list sorted by descending modification time. -/
theorem sorted_sortByMtimeDesc (l : List FileHistoryItem) :
    (sortByMtimeDesc l).Pairwise (fun a b => b.modified_time ≤ a.modified_time) := by
  induction l with
  | nil => simp [sortByMtimeDesc]
  | cons x xs ih => exact sorted_insertByMtime ih

/-- Inserting an item leaves every equal-time fibre as the item consed in
front, and all other fibres untouched: the inserted item always lands before
existing items of its own modification time. -/
theorem filter_insertByMtime (x : FileHistoryItem) (s : List FileHistoryItem) (t : Nat) :
    (insertByMtime x s).filter (fun it => it.modified_time == t)
      = if x.modified_time == t
        then x :: s.filter (fun it => it.modified_time == t)
        else s.filter (fun it => it.modified_time == t) := by
  induction s with
  | nil =>
    by_cases hx : (x.modified_time == t) = true <;> simp [insertByMtime, hx]
  | cons y ys ih =>
    by_cases h : x.modified_time < y.modified_time
    · rw [insertByMtime, if_pos h]
      by_cases hy : (y.modified_time == t) = true
      · have hx : (x.modified_time == t) = false := by
          have hyt : y.modified_time = t := by simpa using hy
          have : x.modified_time ≠ t := by omega
          simpa using this
        simp [List.filter_cons, hy, hx, ih]
      · simp [List.filter_cons, hy, ih]
    · rw [insertByMtime, if_neg h]
      by_cases hx : (x.modified_time == t) = true <;> simp [List.filter_cons, hx]

/-- Stability of the sort: every equal-modification-time fibre of the sorted
list equals the same fibre of the input, in input order. -/
theorem filter_sortByMtimeDesc (l : List FileHistoryItem) (t : Nat) :
    (sortByMtimeDesc l).filter (fun it => it.modified_time == t)
      = l.filter (fun it => it.modified_time == t) := by
  induction l with
  | nil => rfl
  | cons x xs ih =>
    rw [sortByMtimeDesc, filter_insertByMtime]
    by_cases hx : (x.modified_time == t) = true <;> simp [List.filter_cons, hx, ih]

/-- For an invalid path, load_file_history returns immediately. -/
theorem load_invalid_eq (fs : FileSystem) (ps : List SyncPair) (cache : HistoryCache)
    (p : String) (hv : isValidPath fs p = false) :
    load_file_history fs p ps cache = ⟨[], false, cache, 0⟩ := by
  unfold load_file_history
  rw [hv]
  simp

/-- For a valid cached path, load_file_history answers from the cache. -/
theorem load_valid_cached (fs : FileSystem) (ps : List SyncPair) (cache : HistoryCache)
    (p : String) (r : List FileHistoryItem × Bool) (hv : isValidPath fs p = true)
    (hc : cache p = some r) :
    load_file_history fs p ps cache = ⟨r.1, r.2, cache, 0⟩ := by
  unfold load_file_history
  rw [hv, hc]
  simp

/-- For a valid uncached path, load_file_history scans, sorts, caches and
returns. -/
theorem load_valid_uncached (fs : FileSystem) (ps : List SyncPair) (cache : HistoryCache)
    (p : String) (hv : isValidPath fs p = true) (hc : cache p = none) :
    load_file_history fs p ps cache
      = ⟨sortByMtimeDesc (emittedItems fs p ps).1, (emittedItems fs p ps).2,
         cacheInsert cache p
           (sortByMtimeDesc (emittedItems fs p ps).1, (emittedItems fs p ps).2), 1⟩ := by
  unfold load_file_history
  rw [hv, hc]
  simp

/-! ## Claim theorems -/

/-- C10: for every queried path whose validity probe fails, load_file_history
returns the empty list with a false flag immediately: the cache is returned
untouched whatever it contains, no per-pair scan runs, and this holds for
every configured pair list, including pairs whose left or right folder would
contain the path. -/
theorem invalid_path_resolves_empty_without_cache (fs : FileSystem) (ps : List SyncPair)
    (cache : HistoryCache) (p : String) (hv : isValidPath fs p = false) :
    load_file_history fs p ps cache = ⟨[], false, cache, 0⟩ :=
  load_invalid_eq fs ps cache p hv

/-- C10 witness: the probe fails on an empty filesystem and the call returns
the immediate empty outcome. -/
theorem invalid_path_resolves_empty_without_cache_witness :
    isValidPath ⟨[]⟩ "/missing.txt" = false
      ∧ load_file_history ⟨[]⟩ "/missing.txt" [pairAB] emptyCache
          = ⟨[], false, emptyCache, 0⟩ :=
  ⟨by decide,
   invalid_path_resolves_empty_without_cache ⟨[]⟩ [pairAB] emptyCache "/missing.txt"
     (by decide)⟩

/-- C9: the history cache memoizes by absolute path: a second call for the
same unchanged valid path returns the same list and flag without a second
scan; clearing one path removes exactly that entry and nothing else,
clearing with none empties the whole cache, and a call right after clearing
the path performs a fresh scan. -/
theorem history_cache_memoizes_and_invalidates (fs : FileSystem) (ps : List SyncPair)
    (cache : HistoryCache) (p q : String) (hv : isValidPath fs p = true) :
    ((load_file_history fs p ps (load_file_history fs p ps cache).cache).items
        = (load_file_history fs p ps cache).items
      ∧ (load_file_history fs p ps (load_file_history fs p ps cache).cache).has_matched
        = (load_file_history fs p ps cache).has_matched
      ∧ (load_file_history fs p ps (load_file_history fs p ps cache).cache).scans = 0)
    ∧ clear_file_history_cache cache (some p) q = (if q = p then none else cache q)
    ∧ clear_file_history_cache cache none q = none
    ∧ (load_file_history fs p ps (clear_file_history_cache cache (some p))).scans = 1 := by
  have hclear : ∀ q, clear_file_history_cache cache (some p) q
      = (if q = p then none else cache q) := by
    intro q
    show (if (cache p).isSome = true then cacheErase cache p else cache) q
      = (if q = p then none else cache q)
    cases hcp : cache p with
    | none =>
      simp only [Option.isSome_none, Bool.false_eq_true, if_false]
      by_cases hq : q = p
      · subst hq
        simp [hcp]
      · simp [hq]
    | some r =>
      simp only [Option.isSome_some, if_true]
      unfold cacheErase
      by_cases hq : q = p
      · subst hq
        simp
      · simp [hq, beq_iff_eq]
  refine ⟨?_, hclear q, rfl, ?_⟩
  · cases hcp : cache p with
    | some r =>
      rw [load_valid_cached fs ps cache p r hv hcp]
      rw [load_valid_cached fs ps cache p r hv hcp]
      exact ⟨rfl, rfl, rfl⟩
    | none =>
      rw [load_valid_uncached fs ps cache p hv hcp]
      rw [load_valid_cached fs ps
        (cacheInsert cache p
          (sortByMtimeDesc (emittedItems fs p ps).1, (emittedItems fs p ps).2)) p
        (sortByMtimeDesc (emittedItems fs p ps).1, (emittedItems fs p ps).2) hv
        (by unfold cacheInsert; simp)]
      exact ⟨rfl, rfl, rfl⟩
  · have hcp2 : clear_file_history_cache cache (some p) p = none := by
      rw [hclear p]
      simp
    rw [load_valid_uncached fs ps (clear_file_history_cache cache (some p)) p hv hcp2]

/-- C9 witness: concrete instantiation on the scenario filesystem. -/
theorem history_cache_memoizes_and_invalidates_witness :
    isValidPath fsScenario "/A/doc.txt" = true
      ∧ (((load_file_history fsScenario "/A/doc.txt" [pairAB]
            (load_file_history fsScenario "/A/doc.txt" [pairAB] emptyCache).cache).items
          = (load_file_history fsScenario "/A/doc.txt" [pairAB] emptyCache).items
        ∧ (load_file_history fsScenario "/A/doc.txt" [pairAB]
            (load_file_history fsScenario "/A/doc.txt" [pairAB] emptyCache).cache).has_matched
          = (load_file_history fsScenario "/A/doc.txt" [pairAB] emptyCache).has_matched
        ∧ (load_file_history fsScenario "/A/doc.txt" [pairAB]
            (load_file_history fsScenario "/A/doc.txt" [pairAB] emptyCache).cache).scans = 0)
      ∧ clear_file_history_cache emptyCache (some "/A/doc.txt") "/B/doc.txt"
          = (if "/B/doc.txt" = "/A/doc.txt" then none else emptyCache "/B/doc.txt")
      ∧ clear_file_history_cache emptyCache none "/B/doc.txt" = none
      ∧ (load_file_history fsScenario "/A/doc.txt" [pairAB]
          (clear_file_history_cache emptyCache (some "/A/doc.txt"))).scans = 1) :=
  ⟨by decide,
   history_cache_memoizes_and_invalidates fsScenario [pairAB] emptyCache
     "/A/doc.txt" "/B/doc.txt" (by decide)⟩

/-- C7: evaluation at the failing input of the remarks deletion slip: for a
path whose file hashes successfully but has no remarks record matching by
path or by hash, the store comes back unchanged yet delete_remarks returns
true, so the returned boolean is not equivalent to a record having been
removed. -/
theorem delete_remarks_true_without_removal :
    delete_remarks remEnvA [recOther] "/a" = ([recOther], true)
      ∧ remEnvA.hashOf "/a" = "h1" := by decide

/-- C1 counterexample: a file that exists only under the right side of the
only configured pair: the right side contains the queried path by
relative_to, the path is valid and uncached, yet has_matched_pair is
false, refuting the only-if-contains direction of the claim. -/
theorem right_side_file_not_matched :
    (load_file_history fsRightOnly "/B/doc.txt" [pairAB] emptyCache).has_matched = false
      ∧ (relativeTo (parsePath "/B/doc.txt") (parsePath pairAB.right_path)).isSome = true
      ∧ isValidPath fsRightOnly "/B/doc.txt" = true := by decide

/-- C1 (amended): for a valid path not in the cache, has_matched_pair is true
iff the queried string equals its own normalised rendering and at least one
configured pair's left side contains it; containment in a right side alone
never sets the flag. -/
theorem has_matched_iff_left_side_contains (fs : FileSystem) (ps : List SyncPair)
    (cache : HistoryCache) (p : String) (hv : isValidPath fs p = true)
    (hc : cache p = none) :
    (load_file_history fs p ps cache).has_matched = true
      ↔ (renderPath (parsePath p) = p
          ∧ ∃ pair ∈ ps,
              (relativeTo (parsePath p) (parsePath pair.left_path)).isSome = true) := by
  rw [load_valid_uncached fs ps cache p hv hc]
  show (emittedItems fs p ps).2 = true ↔ _
  rw [emittedItems_eq]
  simp only [List.any_eq_true]
  constructor
  · rintro ⟨pair, hmem, hm⟩
    rcases (processPair_matched_iff fs p pair).mp hm with ⟨hsome, hren⟩
    exact ⟨hren, pair, hmem, hsome⟩
  · rintro ⟨hren, pair, hmem, hsome⟩
    exact ⟨pair, hmem, (processPair_matched_iff fs p pair).mpr ⟨hsome, hren⟩⟩

/-- C1 witness: the amended equivalence instantiated on the scenario
filesystem at the left-side file. -/
theorem has_matched_iff_left_side_contains_witness :
    isValidPath fsScenario "/A/doc.txt" = true
      ∧ emptyCache "/A/doc.txt" = none
      ∧ ((load_file_history fsScenario "/A/doc.txt" [pairAB] emptyCache).has_matched = true
          ↔ (renderPath (parsePath "/A/doc.txt") = "/A/doc.txt"
              ∧ ∃ pair ∈ [pairAB],
                  (relativeTo (parsePath "/A/doc.txt")
                    (parsePath pair.left_path)).isSome = true)) :=
  ⟨by decide, rfl,
   has_matched_iff_left_side_contains fsScenario [pairAB] emptyCache "/A/doc.txt"
     (by decide) rfl⟩

/-- C2 counterexample: with the pair left /A, right /B, versioning /V and the
archived file on disk, resolving /V/doc.txt 2024-01-01 120000.txt yields no
items at all — not exactly one archived item — although the path is valid
and its name matches the archival glob pattern of the resolver. -/
theorem versioning_file_resolves_to_no_items :
    (load_file_history fsVersOnly "/V/doc.txt 2024-01-01 120000.txt" [pairAB]
        emptyCache).items = []
      ∧ isValidPath fsVersOnly "/V/doc.txt 2024-01-01 120000.txt" = true
      ∧ globMatch (versionGlobPattern "doc.txt" ".txt")
          "doc.txt 2024-01-01 120000.txt".toList = true := by decide

/-- C2 (amended): the resolver never classifies the queried path against the
versioning folder: whenever relative_to against a pair's left path fails —
in particular for a file inside the versioning folder but outside the left
tree — that pair contributes no items and no match, so no archived item is
ever reported for the queried path itself. -/
theorem pair_without_left_membership_contributes_nothing (fs : FileSystem)
    (cache : HistoryCache) (p : String) (pair : SyncPair)
    (h : relativeTo (parsePath p) (parsePath pair.left_path) = none)
    (hc : cache p = none) :
    (load_file_history fs p [pair] cache).items = []
      ∧ (load_file_history fs p [pair] cache).has_matched = false := by
  have hpp : processPair fs p pair = ([], false) := by
    unfold processPair
    rw [h]
  have he : emittedItems fs p [pair] = ([], false) := by
    rw [emittedItems_eq]
    simp [hpp]
  cases hv : isValidPath fs p with
  | false =>
    rw [load_invalid_eq fs [pair] cache p hv]
    exact ⟨rfl, rfl⟩
  | true =>
    rw [load_valid_uncached fs [pair] cache p hv hc]
    refine ⟨?_, ?_⟩
    · show sortByMtimeDesc (emittedItems fs p [pair]).1 = []
      rw [he]
      rfl
    · show (emittedItems fs p [pair]).2 = false
      rw [he]

/-- Every archived item carries the archived role fields. -/
theorem versioningItems_fields (fs : FileSystem) (pair : SyncPair) (rel : PPath)
    (it : FileHistoryItem) (hmem : it ∈ versioningItems fs pair rel) :
    it.is_source = false ∧ it.is_synced = false ∧ it.version = "历史版本" := by
  unfold versioningItems at hmem
  cases hvf : pair.versioning_folder with
  | none =>
    rw [hvf, versioningItemsCore] at hmem
    simp at hmem
  | some vf =>
    rw [hvf, versioningItemsCore] at hmem
    by_cases hne : (vf != "") = true
    · rw [if_pos hne] at hmem
      rcases List.mem_filterMap.mp hmem with ⟨nm, _, hfn⟩
      by_cases hex : fs.existsStr (renderPath
          ⟨((joinPath (parsePath vf) rel).parent).absolute,
           ((joinPath (parsePath vf) rel).parent).comps ++ [nm]⟩) = true
      · simp only [hex, if_true, Option.some_inj] at hfn
        subst hfn
        exact ⟨rfl, rfl, rfl⟩
      · simp only [Bool.not_eq_true] at hex
        simp only [hex, Bool.false_eq_true, if_false] at hfn
        exact absurd hfn (by simp)
    · rw [if_neg hne] at hmem
      simp at hmem

/-- The full shape of the per-pair output for a file whose path round-trips
and lies under the left folder: the source item, then the conditional mirror
item, then the archived items, with a true match flag. -/
theorem processPair_eq_of_left (fs : FileSystem) (pair : SyncPair) (p : String)
    (rel : PPath) (h : relativeTo (parsePath p) (parsePath pair.left_path) = some rel)
    (hnorm : renderPath (parsePath p) = p) :
    processPair fs p pair
      = (mkHistoryItem fs p "源文件" pair true true ::
          ((if fs.existsStr (renderPath (joinPath (parsePath pair.right_path) rel))
            then [mkHistoryItem fs (renderPath (joinPath (parsePath pair.right_path) rel))
                    "同步文件" pair false true]
            else [])
           ++ versioningItems fs pair rel), true) := by
  have hj := joinPath_relativeTo h
  unfold processPair
  simp only [h, hj, hnorm, beq_self_eq_true, if_true, List.singleton_append,
    List.cons_append, List.nil_append]

/-- C2 witness: the amended statement instantiated at the archived file of
the counterexample filesystem. -/
theorem pair_without_left_membership_contributes_nothing_witness :
    relativeTo (parsePath "/V/doc.txt 2024-01-01 120000.txt")
        (parsePath pairAB.left_path) = none
      ∧ emptyCache "/V/doc.txt 2024-01-01 120000.txt" = none
      ∧ ((load_file_history fsVersOnly "/V/doc.txt 2024-01-01 120000.txt" [pairAB]
            emptyCache).items = []
          ∧ (load_file_history fsVersOnly "/V/doc.txt 2024-01-01 120000.txt" [pairAB]
              emptyCache).has_matched = false) :=
  ⟨by decide, rfl,
   pair_without_left_membership_contributes_nothing fsVersOnly emptyCache
     "/V/doc.txt 2024-01-01 120000.txt" pairAB (by decide) rfl⟩

/-- C3: for a valid uncached file under a pair's left folder, resolving
against that single pair yields exactly one source item, that item is the
probed file with source and synced flags, a mirror item appears iff the
mirrored right-side path exists, and the concrete three-file scenario
resolves to exactly the source, mirror and archived items in descending
time order with a true match flag. -/
theorem left_file_source_and_mirror (fs : FileSystem) (pair : SyncPair) (p : String)
    (rel : PPath) (cache : HistoryCache)
    (h : relativeTo (parsePath p) (parsePath pair.left_path) = some rel)
    (hnorm : renderPath (parsePath p) = p)
    (hv : isValidPath fs p = true) (hc : cache p = none) :
    ((load_file_history fs p [pair] cache).items.countP (fun it => it.is_source) = 1
      ∧ (∀ it ∈ (load_file_history fs p [pair] cache).items, it.is_source = true →
          it = mkHistoryItem fs p "源文件" pair true true)
      ∧ ((∃ it ∈ (load_file_history fs p [pair] cache).items, it.version = "同步文件")
          ↔ fs.existsStr (renderPath (joinPath (parsePath pair.right_path) rel)) = true))
    ∧ (load_file_history fsScenario "/A/doc.txt" [pairAB] emptyCache).items
        = [⟨"doc.txt", 100, 7, "源文件", "/A/doc.txt", "/A", pairAB, true, true⟩,
           ⟨"doc.txt", 90, 7, "同步文件", "/B/doc.txt", "/B", pairAB, false, true⟩,
           ⟨"doc.txt 2024-01-01 120000.txt", 80, 7, "历史版本",
            "/V/doc.txt 2024-01-01 120000.txt", "/V", pairAB, false, false⟩]
    ∧ (load_file_history fsScenario "/A/doc.txt" [pairAB] emptyCache).has_matched
        = true := by
  have hemit : (emittedItems fs p [pair]).1 = (processPair fs p pair).1 := by
    rw [emittedItems_eq]
    simp
  have hpp := processPair_eq_of_left fs pair p rel h hnorm
  refine ⟨?_, by decide, by decide⟩
  rw [load_valid_uncached fs [pair] cache p hv hc]
  have hperm : (sortByMtimeDesc (emittedItems fs p [pair]).1).Perm
      (processPair fs p pair).1 := by
    rw [hemit]
    exact sortByMtimeDesc_perm _
  have hvers0 : (versioningItems fs pair rel).countP (fun it => it.is_source) = 0 :=
    List.countP_eq_zero.mpr (fun it hmem => by
      simp [(versioningItems_fields fs pair rel it hmem).1])
  refine ⟨?_, ?_, ?_⟩
  · show (sortByMtimeDesc (emittedItems fs p [pair]).1).countP (fun it => it.is_source) = 1
    rw [hperm.countP_eq, hpp]
    by_cases hex : fs.existsStr (renderPath (joinPath (parsePath pair.right_path) rel)) = true
    · simp [hex, List.countP_cons, List.countP_append, hvers0, mkHistoryItem]
    · simp [hex, List.countP_cons, List.countP_append, hvers0, mkHistoryItem]
  · intro it hmem hsrc
    replace hmem : it ∈ (processPair fs p pair).1 := hperm.mem_iff.mp hmem
    rw [hpp] at hmem
    rcases List.mem_cons.mp hmem with hit | hit
    · exact hit
    · rcases List.mem_append.mp hit with hmir | hver
      · by_cases hex : fs.existsStr (renderPath (joinPath (parsePath pair.right_path) rel))
            = true
        · rw [if_pos hex] at hmir
          rcases List.mem_singleton.mp hmir with rfl
          exact absurd hsrc (by simp [mkHistoryItem])
        · rw [if_neg hex] at hmir
          exact absurd hmir (by simp)
      · exact absurd hsrc (by
          simp [(versioningItems_fields fs pair rel it hver).1])
  · constructor
    · rintro ⟨it, hmem, hver⟩
      replace hmem : it ∈ (processPair fs p pair).1 := hperm.mem_iff.mp hmem
      rw [hpp] at hmem
      rcases List.mem_cons.mp hmem with hit | hit
      · subst hit
        exact absurd hver (by simp [mkHistoryItem])
      · rcases List.mem_append.mp hit with hmir | hv2
        · by_cases hex : fs.existsStr (renderPath (joinPath (parsePath pair.right_path) rel))
              = true
          · exact hex
          · rw [if_neg hex] at hmir
            exact absurd hmir (by simp)
        · exact absurd hver (by
            simp [(versioningItems_fields fs pair rel it hv2).2.2])
    · intro hex
      refine ⟨mkHistoryItem fs (renderPath (joinPath (parsePath pair.right_path) rel))
        "同步文件" pair false true, ?_, rfl⟩
      apply hperm.mem_iff.mpr
      rw [hpp]
      apply List.mem_cons_of_mem
      apply List.mem_append_left
      rw [if_pos hex]
      exact List.mem_singleton.mpr rfl

/-- C3 witness: instantiation at the scenario filesystem and its left-side
file. -/
theorem left_file_source_and_mirror_witness :
    relativeTo (parsePath "/A/doc.txt") (parsePath pairAB.left_path)
        = some ⟨false, ["doc.txt"]⟩
      ∧ renderPath (parsePath "/A/doc.txt") = "/A/doc.txt"
      ∧ isValidPath fsScenario "/A/doc.txt" = true
      ∧ (((load_file_history fsScenario "/A/doc.txt" [pairAB] emptyCache).items.countP
            (fun it => it.is_source) = 1
          ∧ (∀ it ∈ (load_file_history fsScenario "/A/doc.txt" [pairAB] emptyCache).items,
              it.is_source = true →
              it = mkHistoryItem fsScenario "/A/doc.txt" "源文件" pairAB true true)
          ∧ ((∃ it ∈ (load_file_history fsScenario "/A/doc.txt" [pairAB] emptyCache).items,
                it.version = "同步文件")
              ↔ fsScenario.existsStr
                  (renderPath (joinPath (parsePath pairAB.right_path)
                    ⟨false, ["doc.txt"]⟩)) = true))
        ∧ (load_file_history fsScenario "/A/doc.txt" [pairAB] emptyCache).items
            = [⟨"doc.txt", 100, 7, "源文件", "/A/doc.txt", "/A", pairAB, true, true⟩,
               ⟨"doc.txt", 90, 7, "同步文件", "/B/doc.txt", "/B", pairAB, false, true⟩,
               ⟨"doc.txt 2024-01-01 120000.txt", 80, 7, "历史版本",
                "/V/doc.txt 2024-01-01 120000.txt", "/V", pairAB, false, false⟩]
        ∧ (load_file_history fsScenario "/A/doc.txt" [pairAB] emptyCache).has_matched
            = true) :=
  ⟨by decide, by decide, by decide,
   left_file_source_and_mirror fsScenario pairAB "/A/doc.txt" ⟨false, ["doc.txt"]⟩
     emptyCache (by decide) (by decide) (by decide) rfl⟩

/-- C4: for a valid uncached path the returned list is sorted by descending
modification time, and it is stable: each equal-time fibre of the output
equals the corresponding fibre of the concatenated per-pair emission list in
emission order. -/
theorem resolution_sorted_desc_and_stable (fs : FileSystem) (ps : List SyncPair)
    (cache : HistoryCache) (p : String) (t : Nat)
    (hv : isValidPath fs p = true) (hc : cache p = none) :
    (load_file_history fs p ps cache).items.Pairwise
        (fun a b => b.modified_time ≤ a.modified_time)
      ∧ (load_file_history fs p ps cache).items.filter (fun it => it.modified_time == t)
          = (emittedItems fs p ps).1.filter (fun it => it.modified_time == t) := by
  rw [load_valid_uncached fs ps cache p hv hc]
  exact ⟨sorted_sortByMtimeDesc _, filter_sortByMtimeDesc _ t⟩

/-- C4 witness: instantiation on the scenario filesystem with the mirror
timestamp as the probed fibre. -/
theorem resolution_sorted_desc_and_stable_witness :
    isValidPath fsScenario "/A/doc.txt" = true
      ∧ emptyCache "/A/doc.txt" = none
      ∧ ((load_file_history fsScenario "/A/doc.txt" [pairAB] emptyCache).items.Pairwise
            (fun a b => b.modified_time ≤ a.modified_time)
          ∧ (load_file_history fsScenario "/A/doc.txt" [pairAB] emptyCache).items.filter
              (fun it => it.modified_time == 90)
            = (emittedItems fsScenario "/A/doc.txt" [pairAB]).1.filter
                (fun it => it.modified_time == 90)) :=
  ⟨by decide, rfl,
   resolution_sorted_desc_and_stable fsScenario [pairAB] emptyCache "/A/doc.txt" 90
     (by decide) rfl⟩

/-- A filterMap whose function succeeds exactly on elements with both a Left
and a Right child keeps as many elements as the corresponding filter. -/
theorem length_filterMap_pairs (l : List XmlElem) (f : XmlElem → Option SyncPair)
    (hf : ∀ pe, (f pe).isSome = ((pe.find "Left").isSome && (pe.find "Right").isSome)) :
    (l.filterMap f).length
      = (l.filter (fun pe =>
          (pe.find "Left").isSome && (pe.find "Right").isSome)).length := by
  induction l with
  | nil => rfl
  | cons pe rest ih =>
    rw [List.filterMap_cons, List.filter_cons]
    have hpe := hf pe
    cases hfe : f pe with
    | none =>
      rw [hfe] at hpe
      simp only [Option.isSome_none] at hpe
      rw [← hpe]
      simpa using ih
    | some sp =>
      rw [hfe] at hpe
      simp only [Option.isSome_some] at hpe
      rw [← hpe]
      simpa using ih

/-- C5 counterexample: the single Pair of cfgEmptyLeft has a present but
textless Left element — its Left text is missing — yet parse_config does not
skip it: it returns one pair whose left path is the empty string. -/
theorem empty_left_element_pair_not_skipped :
    parse_config (some cfgEmptyLeft) "/c.ffs_batch"
      = some [⟨"c", "", "/B", some "", [], [], [], "/c.ffs_batch"⟩]
      ∧ (cfgEmptyLeft.children.head?.bind (fun fp => fp.children.head?)).bind
          (fun pe => (pe.find "Left").map XmlElem.text) = some none := by
  constructor
  · decide
  · rfl

/-- C5 (amended): parsing a well-formed document never fails: it yields
exactly one pair per Pair element that has both a Left and a Right child
element (a Pair whose Left or Right element is present but textless is kept
with an empty path, not skipped), while a malformed or unreadable file makes
parse_config return the explicit failure value none instead of raising. -/
theorem parse_config_skips_only_missing_elements (root : XmlElem) (cfg : String) :
    parse_config none cfg = none
      ∧ (parse_config (some root) cfg).isSome = true
      ∧ ((parse_config (some root) cfg).getD []).length
          = ((folderPairElems root).filter
              (fun pe => (pe.find "Left").isSome && (pe.find "Right").isSome)).length := by
  refine ⟨rfl, ?_, ?_⟩
  · simp only [parse_config, Option.isSome_some]
  · simp only [parse_config, Option.getD_some]
    apply length_filterMap_pairs
    intro pe
    cases h1 : pe.find "Left" with
    | none => simp [h1]
    | some le =>
      cases h2 : pe.find "Right" with
      | none => simp [h1, h2]
      | some re => simp [h1, h2]

/-- Every pair parse_config produces carries the parsed config path as its
sync_config_path. -/
theorem parse_config_pair_paths (doc : Option XmlElem) (cfg : String) (sp : SyncPair)
    (h : sp ∈ (parse_config doc cfg).getD []) : sp.sync_config_path = cfg := by
  cases doc with
  | none => exact absurd h (by simp [parse_config])
  | some root =>
    simp only [parse_config, Option.getD_some] at h
    rcases List.mem_filterMap.mp h with ⟨pe, _, hfn⟩
    cases h1 : pe.find "Left" with
    | none =>
      rw [h1] at hfn
      exact absurd hfn (by simp)
    | some le =>
      cases h2 : pe.find "Right" with
      | none =>
        rw [h1, h2] at hfn
        exact absurd hfn (by simp)
      | some re =>
        rw [h1, h2] at hfn
        simp only [Option.some_inj] at hfn
        subst hfn
        rfl

/-- Membership in the accumulator is preserved when registering new pairs. -/
theorem mem_appendNewPairs : ∀ (new acc : List SyncPair) (q : SyncPair),
    q ∈ acc → q ∈ appendNewPairs acc new := by
  intro new
  induction new with
  | nil =>
    intro acc q hq
    exact hq
  | cons sp tl ih =>
    intro acc q hq
    show q ∈ appendNewPairs (if acc.any (pairEqPy sp) = true then acc else acc ++ [sp]) tl
    by_cases hin : acc.any (pairEqPy sp) = true
    · rw [if_pos hin]
      exact ih acc q hq
    · rw [if_neg hin]
      exact ih _ q (List.mem_append_left _ hq)

/-- Registering pairs that are all already represented is a no-op. -/
theorem appendNewPairs_no_new : ∀ (new acc : List SyncPair),
    (∀ sp ∈ new, acc.any (pairEqPy sp) = true) → appendNewPairs acc new = acc := by
  intro new
  induction new with
  | nil =>
    intro acc _
    rfl
  | cons sp tl ih =>
    intro acc h
    show appendNewPairs (if acc.any (pairEqPy sp) = true then acc else acc ++ [sp]) tl = acc
    rw [if_pos (h sp (List.mem_cons_self sp tl))]
    exact ih acc (fun x hx => h x (List.mem_cons_of_mem sp hx))

/-- After registering, every new pair has a representative with its config
path in the result. -/
theorem exists_path_appendNewPairs : ∀ (new acc : List SyncPair) (sp : SyncPair),
    sp ∈ new →
    ∃ q ∈ appendNewPairs acc new, q.sync_config_path = sp.sync_config_path := by
  intro new
  induction new with
  | nil =>
    intro acc sp h
    exact absurd h (List.not_mem_nil sp)
  | cons hd tl ih =>
    intro acc sp hsp
    show ∃ q ∈ appendNewPairs (if acc.any (pairEqPy hd) = true then acc else acc ++ [hd]) tl,
      q.sync_config_path = sp.sync_config_path
    rcases List.mem_cons.mp hsp with rfl | htl
    · by_cases hin : acc.any (pairEqPy sp) = true
      · rw [if_pos hin]
        rcases List.any_eq_true.mp hin with ⟨q, hq, hpq⟩
        unfold pairEqPy at hpq
        exact ⟨q, mem_appendNewPairs tl _ q hq, (beq_iff_eq.mp hpq).symm⟩
      · rw [if_neg hin]
        exact ⟨sp, mem_appendNewPairs tl _ sp
          (List.mem_append_right _ (List.mem_singleton.mpr rfl)), rfl⟩
    · exact ih _ sp htl

/-- Registering preserves pairwise distinctness of config paths. -/
theorem appendNewPairs_pairwise : ∀ (new acc : List SyncPair),
    acc.Pairwise (fun a b => a.sync_config_path ≠ b.sync_config_path) →
    (appendNewPairs acc new).Pairwise
      (fun a b => a.sync_config_path ≠ b.sync_config_path) := by
  intro new
  induction new with
  | nil =>
    intro acc h
    exact h
  | cons sp tl ih =>
    intro acc h
    show (appendNewPairs (if acc.any (pairEqPy sp) = true then acc else acc ++ [sp])
      tl).Pairwise (fun a b => a.sync_config_path ≠ b.sync_config_path)
    by_cases hin : acc.any (pairEqPy sp) = true
    · rw [if_pos hin]
      exact ih acc h
    · rw [if_neg hin]
      refine ih _ (List.pairwise_append.mpr ⟨h, List.pairwise_singleton _ _, ?_⟩)
      intro a ha b hb
      rcases List.mem_singleton.mp hb with rfl
      intro heq
      have hcon : pairEqPy b a = true := by
        unfold pairEqPy
        rw [beq_iff_eq]
        exact heq.symm
      exact hin (List.any_eq_true.mpr ⟨a, ha, hcon⟩)

/-- C6: parse-then-add is idempotent: adding the same config path twice
yields the same registered pair list, because SyncPair equality compares the
config source path only and add_configs skips equal pairs; moreover adding
preserves the invariant that no two registered pairs share a
sync_config_path. -/
theorem add_same_config_twice_idempotent (env : ConfigEnv) (st : List SyncPair)
    (path : String)
    (hnd : st.Pairwise (fun a b => a.sync_config_path ≠ b.sync_config_path)) :
    (add_configs env (add_configs env st [path]).1 [path]).1
        = (add_configs env st [path]).1
      ∧ (add_configs env st [path]).1.Pairwise
          (fun a b => a.sync_config_path ≠ b.sync_config_path) := by
  have hone : ∀ s : List SyncPair, (add_configs env s [path]).1 = (add_one_config env s path).1 :=
    fun s => rfl
  rw [hone, hone]
  unfold add_one_config
  by_cases hsup : parserSupported path = true
  · rw [if_pos hsup]
    cases hp : parse_config (env path) path with
    | none =>
      simp only [hp, hsup, if_true]
      exact ⟨trivial, hnd⟩
    | some prs =>
      simp only [hp, hsup, if_true]
      constructor
      · apply appendNewPairs_no_new
        intro sp hsp
        rcases exists_path_appendNewPairs prs st sp hsp with ⟨q, hq, hqp⟩
        apply List.any_eq_true.mpr
        refine ⟨q, hq, ?_⟩
        unfold pairEqPy
        rw [beq_iff_eq]
        exact hqp.symm
      · exact appendNewPairs_pairwise prs st hnd
  · rw [if_neg hsup, if_neg hsup]
    exact ⟨rfl, hnd⟩

/-- C6 witness: instantiation with the empty registry and the single-pair
config document. -/
theorem add_same_config_twice_idempotent_witness :
    ([] : List SyncPair).Pairwise (fun a b => a.sync_config_path ≠ b.sync_config_path)
      ∧ ((add_configs (fun s => if s == "/c.ffs_batch" then some cfgEmptyLeft else none)
            (add_configs (fun s => if s == "/c.ffs_batch" then some cfgEmptyLeft else none)
              [] ["/c.ffs_batch"]).1 ["/c.ffs_batch"]).1
          = (add_configs (fun s => if s == "/c.ffs_batch" then some cfgEmptyLeft else none)
              [] ["/c.ffs_batch"]).1
        ∧ (add_configs (fun s => if s == "/c.ffs_batch" then some cfgEmptyLeft else none)
            [] ["/c.ffs_batch"]).1.Pairwise
            (fun a b => a.sync_config_path ≠ b.sync_config_path)) :=
  ⟨List.Pairwise.nil,
   add_same_config_twice_idempotent
     (fun s => if s == "/c.ffs_batch" then some cfgEmptyLeft else none) [] "/c.ffs_batch"
     List.Pairwise.nil⟩

/-- After erasing the first match from a list with at most one match, no
match remains. -/
theorem eraseP_no_match (pred : RemarksRecord → Bool) (l : List RemarksRecord)
    (h : l.countP pred ≤ 1) : ∀ r ∈ l.eraseP pred, pred r = false := by
  induction l with
  | nil =>
    intro r hr
    exact absurd hr (List.not_mem_nil r)
  | cons x xs ih =>
    intro r hr
    by_cases hx : pred x = true
    · rw [List.eraseP_cons_of_pos hx] at hr
      have hcnt : xs.countP pred = 0 := by
        rw [List.countP_cons_of_pos pred xs hx] at h
        omega
      have := List.countP_eq_zero.mp hcnt r hr
      simpa using this
    · rw [List.eraseP_cons_of_neg hx] at hr
      rcases List.mem_cons.mp hr with rfl | hr2
      · simpa using hx
      · refine ih ?_ r hr2
        rw [List.countP_cons_of_neg pred xs hx] at h
        exact h

/-- The first record a query finds keeps its position when updated in place,
provided the update preserves the queried predicate. -/
theorem find?_updateFirst_same (pred : RemarksRecord → Bool)
    (f : RemarksRecord → RemarksRecord) (st : List RemarksRecord)
    (hf : ∀ r, pred r = true → pred (f r) = true) :
    (updateFirst pred f st).find? pred = (st.find? pred).map f := by
  induction st with
  | nil => rfl
  | cons r rs ih =>
    by_cases hr : pred r = true
    · rw [updateFirst, if_pos hr, List.find?_cons_of_pos _ (hf r hr),
        List.find?_cons_of_pos _ hr]
      rfl
    · rw [updateFirst, if_neg hr, List.find?_cons_of_neg _ hr,
        List.find?_cons_of_neg _ hr]
      exact ih

/-- Updating the first match of one predicate in a store with no match of a
second predicate makes the updated record the first match of the second
predicate, when the update establishes it. -/
theorem find?_updateFirst_other (predA predB : RemarksRecord → Bool)
    (f : RemarksRecord → RemarksRecord)
    (hB : ∀ r, predB r = true → predA (f r) = true) :
    ∀ st : List RemarksRecord, (∀ r ∈ st, predA r = false) →
      (updateFirst predB f st).find? predA = (st.find? predB).map f := by
  intro st
  induction st with
  | nil =>
    intro _
    rfl
  | cons r rs ih =>
    intro hA
    by_cases hr : predB r = true
    · rw [updateFirst, if_pos hr, List.find?_cons_of_pos _ (hB r hr),
        List.find?_cons_of_pos _ hr]
      rfl
    · have hAr : ¬ predA r = true := by
        rw [hA r (List.mem_cons_self r rs)]
        exact Bool.false_ne_true
      rw [updateFirst, if_neg hr, List.find?_cons_of_neg _ hAr,
        List.find?_cons_of_neg _ hr]
      exact ih (fun x hx => hA x (List.mem_cons_of_mem r hx))

/-- A record found by the path query is the remarks record returned. -/
theorem get_remarks_record_of_find (env : RemarksEnv) (st : List RemarksRecord)
    (p : String) (r : RemarksRecord)
    (hp : st.find? (fun x => x.file_path == env.resolve p) = some r) :
    get_remarks_record env st p = some r := by
  unfold get_remarks_record
  simp only [hp]

/-- When both the path query and the hash query miss, no record is
returned. -/
theorem get_remarks_record_none (env : RemarksEnv) (st : List RemarksRecord) (p : String)
    (hp : st.find? (fun x => x.file_path == env.resolve p) = none)
    (hh : st.find? (fun x => x.file_hash == env.hashOf p) = none) :
    get_remarks_record env st p = none := by
  unfold get_remarks_record
  simp only [hp, hh]
  by_cases hne : (env.hashOf p != "") = true <;> simp [hne]

/-- Under a unique path record and hash-implies-path store, deletion leaves
no record for the path and a subsequent lookup misses. -/
theorem delete_remarks_clears (env : RemarksEnv) (st : List RemarksRecord) (p : String)
    (h1 : st.countP (fun r => r.file_path == env.resolve p) ≤ 1)
    (h2 : ∀ r ∈ st, r.file_hash = env.hashOf p → r.file_path = env.resolve p) :
    (∀ r ∈ (delete_remarks env st p).1, r.file_path ≠ env.resolve p)
      ∧ get_remarks env (delete_remarks env st p).1 p = "" := by
  by_cases hpath : st.any (fun r => r.file_path == env.resolve p) = true
  · have hst : (delete_remarks env st p).1
        = st.eraseP (fun r => r.file_path == env.resolve p) := by
      simp only [delete_remarks, hpath, if_true]
    rw [hst]
    have hclear := eraseP_no_match (fun r => r.file_path == env.resolve p) st h1
    have hne : ∀ r ∈ st.eraseP (fun x => x.file_path == env.resolve p),
        r.file_path ≠ env.resolve p := fun r hr => beq_eq_false_iff_ne.mp (hclear r hr)
    refine ⟨hne, ?_⟩
    have hp : (st.eraseP (fun x => x.file_path == env.resolve p)).find?
        (fun x => x.file_path == env.resolve p) = none :=
      List.find?_eq_none.mpr (fun x hx => by simp [hclear x hx])
    have hh : (st.eraseP (fun x => x.file_path == env.resolve p)).find?
        (fun x => x.file_hash == env.hashOf p) = none := by
      apply List.find?_eq_none.mpr
      intro x hx hcon
      have hxst : x ∈ st := (List.eraseP_sublist st).subset hx
      exact hne x hx (h2 x hxst (beq_iff_eq.mp hcon))
    unfold get_remarks
    rw [get_remarks_record_none env _ p hp hh]
  · have hpath' : st.any (fun r => r.file_path == env.resolve p) = false := by
      simpa using hpath
    have hnone : ∀ r ∈ st, (r.file_path == env.resolve p) = false := by
      intro r hr
      simpa using List.any_eq_false.mp hpath' r hr
    have hne2 : ∀ r ∈ st, r.file_path ≠ env.resolve p := fun r hr =>
      beq_eq_false_iff_ne.mp (hnone r hr)
    have hhash : st.any (fun r => r.file_hash == env.hashOf p) = false := by
      apply List.any_eq_false.mpr
      intro r hr hcon
      exact hne2 r hr (h2 r hr (beq_iff_eq.mp hcon))
    have hst : (delete_remarks env st p).1 = st := by
      simp only [delete_remarks, hpath', Bool.false_eq_true, if_false, hhash]
      by_cases hne3 : (env.hashOf p != "") = true <;> simp [hne3]
    rw [hst]
    refine ⟨hne2, ?_⟩
    unfold get_remarks
    rw [get_remarks_record_none env st p
      (List.find?_eq_none.mpr (fun x hx => by simp [hnone x hx]))
      (List.find?_eq_none.mpr (fun x hx => by
        simpa using List.any_eq_false.mp hhash x hx))]

/-- Writing a non-blank remark and reading it back returns the written,
stripped text, from any prior store state. -/
theorem set_then_get_hello (env : RemarksEnv) (st : List RemarksRecord) (p : String) :
    get_remarks env (set_remarks env st p "hello").1 p = "hello" := by
  have htr : strTrim "hello" = "hello" := by decide
  simp only [set_remarks, htr]
  rw [if_neg (by decide : ¬ ((("hello" : String) == "") = true))]
  by_cases hpath : st.any (fun r => r.file_path == env.resolve p) = true
  · rw [if_pos hpath]
    obtain ⟨r0, hr0⟩ : ∃ r0, st.find? (fun r => r.file_path == env.resolve p) = some r0 :=
      Option.isSome_iff_exists.mp
        (List.find?_isSome.mpr (List.any_eq_true.mp hpath))
    have hfind := find?_updateFirst_same (fun r => r.file_path == env.resolve p)
      (fun r => { r with remarks := "hello", updated_at := env.now }) st
      (fun r hr => hr)
    unfold get_remarks
    rw [get_remarks_record_of_find env _ p _ (by rw [hfind, hr0]; rfl)]
  · have hpath' : st.any (fun r => r.file_path == env.resolve p) = false := by
      simpa using hpath
    rw [if_neg hpath]
    by_cases hhash : ((env.hashOf p != "")
        && st.any (fun r => r.file_hash == env.hashOf p)) = true
    · rw [if_pos hhash]
      rw [Bool.and_eq_true] at hhash
      obtain ⟨r0, hr0⟩ : ∃ r0, st.find? (fun r => r.file_hash == env.hashOf p) = some r0 :=
        Option.isSome_iff_exists.mp
          (List.find?_isSome.mpr (List.any_eq_true.mp hhash.2))
      have hA : ∀ r ∈ st, (fun x => x.file_path == env.resolve p) r = false := by
        intro r hr
        simpa using List.any_eq_false.mp hpath' r hr
      have hB : ∀ r : RemarksRecord, (r.file_hash == env.hashOf p) = true →
          ((({ r with
                file_path := env.resolve p
                remarks := "hello"
                updated_at := env.now } : RemarksRecord).file_path)
            == env.resolve p) = true := by
        intro r _
        simp
      have hfind := find?_updateFirst_other (fun x => x.file_path == env.resolve p)
        (fun x => x.file_hash == env.hashOf p)
        (fun r => { r with
          file_path := env.resolve p
          remarks := "hello"
          updated_at := env.now }) hB st hA
      unfold get_remarks
      rw [get_remarks_record_of_find env _ p _ (by rw [hfind, hr0]; rfl)]
    · rw [if_neg hhash]
      have hfind : (st ++ ([⟨env.resolve p, env.hashOf p, "hello", env.now, env.now⟩]
            : List RemarksRecord)).find? (fun x => x.file_path == env.resolve p)
          = some (⟨env.resolve p, env.hashOf p, "hello", env.now, env.now⟩
            : RemarksRecord) := by
        rw [List.find?_append,
          List.find?_eq_none.mpr (fun x hx => by
            simpa using List.any_eq_false.mp hpath' x hx)]
        simp [List.find?]
      unfold get_remarks
      rw [get_remarks_record_of_find env _ p _ hfind]

/-- C8: remarks round-trip: writing the text hello and reading it back
returns hello from any store state; writing any text that strips to blank is
the same operation as deletion; and when the store holds at most one record
for the normalised path and hash matches occur only on records carrying that
path, writing a blank remark leaves no record for the path and a subsequent
read returns the empty string. -/
theorem remarks_roundtrip_and_clear (env : RemarksEnv) (st : List RemarksRecord)
    (p text : String) (htext : strTrim text = "")
    (h1 : st.countP (fun r => r.file_path == env.resolve p) ≤ 1)
    (h2 : ∀ r ∈ st, r.file_hash = env.hashOf p → r.file_path = env.resolve p) :
    get_remarks env (set_remarks env st p "hello").1 p = "hello"
      ∧ set_remarks env st p text = delete_remarks env st p
      ∧ get_remarks env (set_remarks env st p "").1 p = ""
      ∧ ∀ r ∈ (set_remarks env st p "").1, r.file_path ≠ env.resolve p := by
  have hdel : set_remarks env st p "" = delete_remarks env st p := by
    simp [set_remarks, show strTrim "" = "" from rfl]
  have hdelc := delete_remarks_clears env st p h1 h2
  refine ⟨set_then_get_hello env st p, ?_, ?_, ?_⟩
  · simp [set_remarks, htext]
  · rw [hdel]
    exact hdelc.2
  · rw [hdel]
    exact hdelc.1

/-- C8 witness: instantiation on the empty store with the identity resolver
and a constant hash. -/
theorem remarks_roundtrip_and_clear_witness :
    strTrim "" = ""
      ∧ ([] : List RemarksRecord).countP
          (fun r => r.file_path == remEnvA.resolve "/a") ≤ 1
      ∧ (get_remarks remEnvA (set_remarks remEnvA [] "/a" "hello").1 "/a" = "hello"
        ∧ set_remarks remEnvA [] "/a" "" = delete_remarks remEnvA [] "/a"
        ∧ get_remarks remEnvA (set_remarks remEnvA [] "/a" "").1 "/a" = ""
        ∧ ∀ r ∈ (set_remarks remEnvA [] "/a" "").1,
            r.file_path ≠ remEnvA.resolve "/a") :=
  ⟨rfl, by decide,
   remarks_roundtrip_and_clear remEnvA [] "/a" "" rfl (by decide) (by simp)⟩

end FFSVM
